import Mathlib

/-!
Verification of the `api_version` codec component of a raw key-value store:
three coexisting wire formats (V1, V1TTL, V2) behind one interface, comprising
a value codec with optional expiry, an order-preserving ("memcomparable") V2
key codec with optional embedded descending timestamp, and a key-mode
classifier.  Byte strings are modelled as `List Nat` (real inputs have every
element < 256); 64-bit quantities are `Nat` with explicit `2 ^ 64` bounds.

The trait (`APIVersion`), its default methods and the test vectors are in
`src/components/api_version/src/lib.rs`; the per-version implementation files
(`api_v1.rs`, `api_v1ttl.rs`, `api_v2.rs`) are not part of the provided
sources, so those operations are modelled from the specification (§4 of the
spec), with constants and boundary behaviour pinned by the in-repo test
vectors (`test_parse`, `test_parse_range`, `test_no_ttl`, `test_ttl`,
`test_value_decode_err`, `test_raw_key`, `test_v2_key_decode_err`).
-/

/-- The API version tag (`kvproto::kvrpcpb::ApiVersion`): `V1`, `V1ttl`, `V2`. -/
inductive ApiVersion where
  | V1
  | V1ttl
  | V2
deriving DecidableEq, Repr

/-- The key mode inferred from the key's leading byte (source enum `KeyMode`):
raw keys, transaction keys, TiDB ("structured") keys, or unrecognised. -/
inductive KeyMode where
  | Raw
  | Txn
  | TiDB
  | Unknown
deriving DecidableEq, Repr

/-- The decode-failure taxonomy of the spec (§4.1, §4.2, §7): truncated /
unexpected-end-of-input, unsupported flag bits, invalid terminal-group marker,
nonzero byte inside declared padding, and trailing data past the logical end. -/
inductive CodecError where
  | truncated
  | unsupportedFlags
  | invalidMarker
  | invalidPadding
  | trailingData
deriving DecidableEq, Repr

/-- A RawKV value and its metadata (source struct `RawValue`): the user value
together with an optional unix-seconds expiry timestamp (a `u64` in the
source, so real values are `< 2 ^ 64`). -/
structure RawValue where
  user_value : List Nat
  expire_ts : Option Nat
deriving DecidableEq, Repr

/-- Big-endian fixed-width byte encoding of a natural number: `beBytes n x`
is the `n`-byte big-endian form of `x` (the source uses `u64::to_be_bytes`,
i.e. `n = 8`). -/
def beBytes : Nat → Nat → List Nat
  | 0, _ => []
  | n + 1, x => x / 256 ^ n :: beBytes n (x % 256 ^ n)

/-- Big-endian interpretation of a byte string as a natural number (the
source uses `u64::from_be_bytes` / `ReadBytesExt::read_u64`). -/
def beVal (l : List Nat) : Nat := l.foldl (fun a b => a * 256 + b) 0

/-- Modelled from the spec: `parse_key_mode` of `api_v1.rs`, `api_v1ttl.rs`
and `api_v2.rs` is not under `src/`.  Spec §4.3 plus the `test_parse` vectors
fix the behaviour: V1 classifies nothing (`Unknown`); V1TTL treats every key
as raw data (the vector `APIV1TTL::parse_key_mode(b"ot") == KeyMode::Raw`
overrides the spec's sentence saying V1TTL always yields `Unknown`); V2
dispatches on the leading byte: `r` (114, the reserved raw-namespace byte)
gives `Raw`, `x` (120, the transactional-namespace byte) gives `Txn`,
`t` (116, table) or `m` (109, meta) gives `TiDB`, anything else `Unknown`. -/
def parse_key_mode : ApiVersion → List Nat → KeyMode
  | .V1, _ => .Unknown
  | .V1ttl, _ => .Raw
  | .V2, [] => .Unknown
  | .V2, b :: _ =>
    if b = 114 then .Raw
    else if b = 120 then .Txn
    else if b = 116 then .TiDB
    else if b = 109 then .TiDB
    else .Unknown

/-- Modelled from the spec: `parse_range_mode` is not under `src/`.  Spec
§4.3 plus the `test_parse_range` vectors fix the behaviour: V1 always
`Unknown`; V1TTL gives `Raw` when both bounds are present (vector
`(m_a, na) ↦ Raw`) and, following the spec's sentence on absent bounds,
`Unknown` otherwise; V2 classifies a range by the start key exactly when both
bounds are present and nonempty and either both share the same leading byte
or the end bound is exactly the one-byte successor of the start's leading
byte (covering whole-namespace ranges such as `("t", "u")`). -/
def parse_range_mode : ApiVersion → Option (List Nat) × Option (List Nat) → KeyMode
  | .V1, _ => .Unknown
  | .V1ttl, (some _, some _) => .Raw
  | .V1ttl, _ => .Unknown
  | .V2, (some s, some e) =>
    if s ≠ [] ∧ e ≠ [] ∧ (e.headD 0 = s.headD 0 ∨ e = [s.headD 0 + 1]) then
      parse_key_mode .V2 s
    else .Unknown
  | .V2, _ => .Unknown

/-- Modelled from the spec: `encode_raw_value` implementations are not under
`src/`.  Spec §4.1 layouts: V1 stores the user value verbatim (a present
expiry is a caller contract violation, see §4.1/§7, so it is ignored here);
V1TTL appends the 8-byte big-endian expiry with 0 meaning "no expiry"; V2
appends the 8-byte big-endian expiry only when present, then one flag byte
whose least-significant bit records that presence. -/
def encode_raw_value : ApiVersion → RawValue → List Nat
  | .V1, v => v.user_value
  | .V1ttl, v => v.user_value ++ beBytes 8 (v.expire_ts.getD 0)
  | .V2, v =>
    match v.expire_ts with
    | some t => v.user_value ++ beBytes 8 t ++ [1]
    | none => v.user_value ++ [0]

/-- Modelled from the spec: the owned encode variant only saves an allocation
(§4.1, design note on dual borrowed/owned entry points) and is observationally
identical to `encode_raw_value`. -/
def encode_raw_value_owned (v : ApiVersion) (val : RawValue) : List Nat :=
  encode_raw_value v val

/-- Modelled from the spec: `decode_raw_value` implementations are not under
`src/`.  Spec §4.1 failure conditions: V1 accepts everything verbatim; V1TTL
needs at least 8 trailing expiry bytes (0 decodes as "no expiry"); V2 needs a
flag byte (else truncated), rejects any reserved (non-LSB) flag bit, and with
the LSB set needs 8 expiry bytes before the flag byte. -/
def decode_raw_value : ApiVersion → List Nat → Except CodecError RawValue
  | .V1, bs => .ok ⟨bs, none⟩
  | .V1ttl, bs =>
    if bs.length < 8 then .error .truncated
    else
      .ok ⟨bs.take (bs.length - 8),
        if beVal (bs.drop (bs.length - 8)) = 0 then none
        else some (beVal (bs.drop (bs.length - 8)))⟩
  | .V2, bs =>
    if bs.length = 0 then .error .truncated
    else
      if bs.getLast?.getD 0 = 0 then .ok ⟨bs.take (bs.length - 1), none⟩
      else if bs.getLast?.getD 0 = 1 then
        if bs.length < 9 then .error .truncated
        else .ok ⟨bs.take (bs.length - 9), some (beVal ((bs.drop (bs.length - 9)).take 8))⟩
      else .error .unsupportedFlags

/-- The default owned decode of the source trait (`lib.rs`, lines 26-37): run
`decode_raw_value`, then truncate the input buffer to the user-value length
("the user value are always the first part in encoded bytes"), keeping the
decoded expiry. -/
def decode_raw_value_owned (v : ApiVersion) (bytes : List Nat) : Except CodecError RawValue :=
  match decode_raw_value v bytes with
  | .error e => .error e
  | .ok rv => .ok ⟨bytes.take rv.user_value.length, rv.expire_ts⟩

/-- The terminal (possibly short) 8-byte group of the memcomparable encoding:
the final data bytes, right-padded with zeros to 8 bytes, followed by the
marker byte `0xFF - pad_count` (spec §4.2). -/
def padGroup (k : List Nat) : List Nat :=
  k ++ List.replicate (8 - k.length) 0 ++ [255 - (8 - k.length)]

/-- Fuel-indexed worker for the memcomparable group encoding; with fuel at
least `k.length` it agrees with the spec's recursion (spec §4.2): every full
non-final 8-byte group is followed by marker `0xFF`, the final group is the
padded terminal group (`pad_count = 8` for an empty or exact-multiple key). -/
def encGroupsF : Nat → List Nat → List Nat
  | 0, k => padGroup k
  | fuel + 1, k =>
    if k.length < 8 then padGroup k
    else k.take 8 ++ 255 :: encGroupsF fuel (k.drop 8)

/-- Modelled from the spec: the memcomparable group encoding of a user key
(spec §4.2, `codec::bytes::encode_bytes` in the source tree). -/
def encGroups (k : List Nat) : List Nat := encGroupsF k.length k

/-- Fuel-indexed worker for memcomparable group decoding; with fuel at least
`bs.length` it agrees with the spec's recursion (spec §4.2): read 9-byte
chunks while the marker is `0xFF`; the first chunk with another marker is
terminal, its `pad_count = 0xFF - marker` must be at most 8 (else invalid
marker), the declared padding bytes must be zero (else invalid padding). -/
def decGroupsF : Nat → List Nat → Except CodecError (List Nat × List Nat)
  | 0, _ => .error .truncated
  | fuel + 1, bs =>
    if bs.length < 9 then .error .truncated
    else if (bs.drop 8).headD 0 = 255 then
      match decGroupsF fuel (bs.drop 9) with
      | .error e => .error e
      | .ok (k, rest) => .ok (bs.take 8 ++ k, rest)
    else if (bs.drop 8).headD 0 < 247 then .error .invalidMarker
    else if ((bs.take 8).drop (8 - (255 - (bs.drop 8).headD 0))).all (fun b => b == 0) then
      .ok ((bs.take 8).take (8 - (255 - (bs.drop 8).headD 0)), bs.drop 9)
    else .error .invalidPadding

/-- Modelled from the spec: memcomparable group decoding; returns the
accumulated key bytes and the leftover bytes after the terminal group. -/
def decGroups (bs : List Nat) : Except CodecError (List Nat × List Nat) :=
  decGroupsF bs.length bs

/-- The encoded suffix contributed by an optional timestamp: 8 big-endian
bytes of `u64::MAX - ts` when present (descending order, spec §4.2), nothing
when absent. -/
def tsTail : Option Nat → List Nat
  | some t => beBytes 8 (2 ^ 64 - 1 - t)
  | none => []

/-- Key encoding (source trait method `encode_raw_key`): V1 and V1TTL return
the user key verbatim (default method in `lib.rs`, lines 56-58); the V2 body
is modelled from spec §4.2 since `api_v2.rs` is not under `src/`. -/
def encode_raw_key : ApiVersion → List Nat → Option Nat → List Nat
  | .V1, k, _ => k
  | .V1ttl, k, _ => k
  | .V2, k, ts => encGroups k ++ tsTail ts

/-- The owned encode variant (source trait method `encode_raw_key_owned`,
`lib.rs` lines 60-62): identical to `encode_raw_key` up to allocation. -/
def encode_raw_key_owned (v : ApiVersion) (k : List Nat) (ts : Option Nat) : List Nat :=
  encode_raw_key v k ts

/-- Key decoding (source trait method `decode_raw_key`): V1 and V1TTL return
the bytes verbatim with no timestamp (default method in `lib.rs`, lines
45-47); the V2 body is modelled from spec §4.2 since `api_v2.rs` is not under
`src/`: decode the groups, then read exactly 8 trailing bytes as
`u64::MAX - ts` when a timestamp is expected (fewer is truncation, more is
trailing data), and reject any leftover bytes when none is expected. -/
def decode_raw_key : ApiVersion → List Nat → Bool → Except CodecError (List Nat × Option Nat)
  | .V1, bs, _ => .ok (bs, none)
  | .V1ttl, bs, _ => .ok (bs, none)
  | .V2, bs, with_ts =>
    match decGroups bs with
    | .error e => .error e
    | .ok (k, rest) =>
      match with_ts with
      | true =>
        if rest.length < 8 then .error .truncated
        else if 8 < rest.length then .error .trailingData
        else .ok (k, some (2 ^ 64 - 1 - beVal rest))
      | false =>
        if rest = [] then .ok (k, none) else .error .trailingData

/-- The owned decode variant (source trait method `decode_raw_key_owned`,
`lib.rs` lines 49-54): identical to `decode_raw_key` up to ownership. -/
def decode_raw_key_owned (v : ApiVersion) (bs : List Nat) (with_ts : Bool) :
    Except CodecError (List Nat × Option Nat) :=
  decode_raw_key v bs with_ts

theorem length_beBytes (n x : Nat) : (beBytes n x).length = n := by
  induction n generalizing x with
  | zero => rfl
  | succ n ih => simp [beBytes, ih]

theorem beVal_foldl : ∀ (n x acc : Nat), x < 256 ^ n →
    List.foldl (fun a b => a * 256 + b) acc (beBytes n x) = acc * 256 ^ n + x := by
  intro n
  induction n with
  | zero =>
    intro x acc h
    simp only [beBytes, List.foldl_nil, pow_zero]
    omega
  | succ n ih =>
    intro x acc h
    have hpow : 0 < 256 ^ n := Nat.pos_pow_of_pos n (by norm_num)
    have hmod : x % 256 ^ n < 256 ^ n := Nat.mod_lt _ hpow
    have hdm := Nat.div_add_mod x (256 ^ n)
    simp only [beBytes, List.foldl_cons]
    rw [ih _ _ hmod, pow_succ]
    calc (acc * 256 + x / 256 ^ n) * 256 ^ n + x % 256 ^ n
        = acc * (256 ^ n * 256) + (256 ^ n * (x / 256 ^ n) + x % 256 ^ n) := by ring
      _ = acc * (256 ^ n * 256) + x := by rw [hdm]

theorem beVal_beBytes (n x : Nat) (h : x < 256 ^ n) : beVal (beBytes n x) = x := by
  have := beVal_foldl n x 0 h
  simpa [beVal] using this

theorem pow256_8 : (256 : Nat) ^ 8 = 2 ^ 64 := by norm_num

theorem take_length_take (bs : List Nat) (m : Nat) :
    bs.take (bs.take m).length = bs.take m := by
  rw [List.length_take]
  rcases Nat.le_total m bs.length with h | h
  · have hm : m ⊓ bs.length = m := by omega
    rw [hm]
  · have hm : m ⊓ bs.length = bs.length := by omega
    rw [hm, List.take_length]
    exact (List.take_of_length_le h).symm

theorem decode_user_take (v : ApiVersion) (bs : List Nat) (rv : RawValue)
    (h : decode_raw_value v bs = .ok rv) : ∃ m, rv.user_value = bs.take m := by
  cases v <;> simp only [decode_raw_value] at h
  · injection h with h1
    exact ⟨bs.length, by rw [← h1, List.take_length]⟩
  · split at h
    · exact absurd h (by simp)
    · injection h with h1
      exact ⟨bs.length - 8, by rw [← h1]⟩
  · split at h
    · exact absurd h (by simp)
    · split at h
      · injection h with h1
        exact ⟨bs.length - 1, by rw [← h1]⟩
      · split at h
        · split at h
          · exact absurd h (by simp)
          · injection h with h1
            exact ⟨bs.length - 9, by rw [← h1]⟩
        · exact absurd h (by simp)

theorem owned_value_eq (v : ApiVersion) (bs : List Nat) :
    decode_raw_value_owned v bs = decode_raw_value v bs := by
  unfold decode_raw_value_owned
  cases hd : decode_raw_value v bs with
  | error e => rfl
  | ok rv =>
    obtain ⟨m, hm⟩ := decode_user_take v bs rv hd
    obtain ⟨uv, ts⟩ := rv
    simp only at hm
    subst hm
    show (Except.ok ⟨bs.take (bs.take m).length, ts⟩ : Except CodecError RawValue)
        = .ok ⟨bs.take m, ts⟩
    rw [take_length_take]

theorem rt_value_v1ttl (uv : List Nat) (x : Nat) (hx : x < 2 ^ 64) :
    decode_raw_value .V1ttl (uv ++ beBytes 8 x) =
      .ok ⟨uv, if x = 0 then none else some x⟩ := by
  have hlen : (uv ++ beBytes 8 x).length = uv.length + 8 := by
    simp [length_beBytes]
  have hsub : (uv ++ beBytes 8 x).length - 8 = uv.length := by omega
  have hval : beVal ((uv ++ beBytes 8 x).drop ((uv ++ beBytes 8 x).length - 8)) = x := by
    rw [hsub, List.drop_left, beVal_beBytes 8 x (by rw [pow256_8]; exact hx)]
  simp only [decode_raw_value]
  rw [if_neg (by omega), hval, hsub, List.take_left]

theorem rt_value_v2none (uv : List Nat) :
    decode_raw_value .V2 (uv ++ [0]) = .ok ⟨uv, none⟩ := by
  have hlen : (uv ++ [0]).length = uv.length + 1 := by simp
  have hlast : (uv ++ [0]).getLast? = some 0 := List.getLast?_concat _
  simp only [decode_raw_value]
  rw [hlast]
  simp only [Option.getD_some]
  rw [if_neg (by omega), if_pos trivial]
  have hsub : (uv ++ [0]).length - 1 = uv.length := by omega
  rw [hsub, List.take_left]

theorem rt_value_v2some (uv : List Nat) (t : Nat) (ht : t < 2 ^ 64) :
    decode_raw_value .V2 (uv ++ beBytes 8 t ++ [1]) = .ok ⟨uv, some t⟩ := by
  have hlen : (uv ++ beBytes 8 t ++ [1]).length = uv.length + 9 := by
    simp [length_beBytes]
  have hlast : (uv ++ beBytes 8 t ++ [1]).getLast? = some 1 := List.getLast?_concat _
  simp only [decode_raw_value]
  rw [hlast]
  simp only [Option.getD_some]
  rw [if_neg (by omega), if_neg (by omega), if_pos trivial, if_neg (by omega)]
  have hsub : (uv ++ beBytes 8 t ++ [1]).length - 9 = uv.length := by omega
  rw [hsub, List.append_assoc, List.take_left, List.drop_left]
  have htake : (beBytes 8 t ++ [1]).take 8 = beBytes 8 t := by
    have h := List.take_left (beBytes 8 t) [1]
    rwa [length_beBytes] at h
  rw [htake, beVal_beBytes 8 t (by rw [pow256_8]; exact ht)]

/-- Claim C3 is false as stated: under V1TTL the value `⟨[], some 0⟩` respects
the claim's TTL-support invariant (which only demands absence under V1), yet
the expiry byte pattern for 0 is the "no expiry" sentinel (spec §4.1), so the
round trip returns `⟨[], none⟩`, not the original value. -/
theorem raw_value_round_trip_cx :
    decode_raw_value .V1ttl (encode_raw_value .V1ttl ⟨[], some 0⟩) ≠ .ok ⟨[], some 0⟩ := by
  intro h
  have h' : (Except.ok (RawValue.mk [] none) : Except CodecError RawValue)
      = .ok (RawValue.mk [] (some 0)) := h
  injection h' with h2
  injection h2 with hu he
  exact Option.noConfusion he

/-- Claim C3 (amended): for every API version and every `RawValue` whose
expiry fits in 64 bits, is absent under V1, and is not the literal zero
sentinel under V1TTL, value decode inverts value encode, for the borrowing
and the owned variants alike. -/
theorem raw_value_round_trip (v : ApiVersion) (val : RawValue)
    (h1 : v = .V1 → val.expire_ts = none)
    (h2 : ∀ t, val.expire_ts = some t → t < 2 ^ 64)
    (h3 : v = .V1ttl → val.expire_ts ≠ some 0) :
    decode_raw_value v (encode_raw_value v val) = .ok val
  ∧ decode_raw_value_owned v (encode_raw_value_owned v val) = .ok val := by
  have main : decode_raw_value v (encode_raw_value v val) = .ok val := by
    obtain ⟨uv, ts⟩ := val
    cases v with
    | V1 =>
      have hts : ts = none := by simpa using h1 rfl
      subst hts
      rfl
    | V1ttl =>
      cases ts with
      | none =>
        have h := rt_value_v1ttl uv 0 (by norm_num)
        simpa [encode_raw_value] using h
      | some t =>
        have htlt : t < 2 ^ 64 := h2 t rfl
        have htne : t ≠ 0 := by
          intro h0
          exact h3 rfl (by rw [h0])
        have h := rt_value_v1ttl uv t htlt
        rw [if_neg htne] at h
        simpa [encode_raw_value] using h
    | V2 =>
      cases ts with
      | none => exact rt_value_v2none uv
      | some t => exact rt_value_v2some uv t (h2 t rfl)
  refine ⟨main, ?_⟩
  rw [owned_value_eq]
  exact main

/-- Claim C3 witness: a concrete V1TTL round trip through the amended
theorem, with every hypothesis discharged at `⟨[97], some 2⟩`. -/
theorem raw_value_round_trip_witness :
    decode_raw_value .V1ttl (encode_raw_value .V1ttl ⟨[97], some 2⟩) = .ok ⟨[97], some 2⟩ :=
  (raw_value_round_trip .V1ttl ⟨[97], some 2⟩
    (fun h => absurd h (by decide))
    (fun t ht => by
      have ht2 : some 2 = some t := ht
      injection ht2 with h
      omega)
    (fun _ => by decide)).1

/-- Claim C7: value decode fails exactly on the spec's malformed inputs:
V1TTL fails precisely on inputs shorter than 8 bytes; V2 fails precisely on
the empty input, a flag byte with any non-LSB bit set (value at least 2), or
a flag byte 1 with fewer than 8 bytes preceding it (length below 9). -/
theorem value_decode_err_iff (bs : List Nat) :
    ((∃ e, decode_raw_value .V1ttl bs = .error e) ↔ bs.length < 8)
  ∧ ((∃ e, decode_raw_value .V2 bs = .error e) ↔
      (bs = [] ∨ 2 ≤ bs.getLast?.getD 0 ∨ (bs.getLast?.getD 0 = 1 ∧ bs.length < 9))) := by
  constructor
  · by_cases h : bs.length < 8
    · simp only [decode_raw_value, if_pos h]
      simp [h]
    · simp only [decode_raw_value, if_neg h]
      simp [h]
  · by_cases h0 : bs.length = 0
    · have hb : bs = [] := List.length_eq_zero.mp h0
      subst hb
      simp [decode_raw_value]
    · simp only [decode_raw_value, if_neg h0]
      have hne : ¬(bs = []) := by
        intro hh
        subst hh
        simp at h0
      by_cases hf0 : bs.getLast?.getD 0 = 0
      · rw [if_pos hf0]
        simp [hne, hf0]
      · rw [if_neg hf0]
        by_cases hf1 : bs.getLast?.getD 0 = 1
        · rw [if_pos hf1]
          by_cases h9 : bs.length < 9
          · rw [if_pos h9]
            simp [hne, hf1, h9]
          · rw [if_neg h9]
            simp [hne, hf1, h9]
        · simp [hne, hf1]
          omega

/-- Claim C7 witness: the reserved flag byte 2 alone is rejected, obtained by
instantiating the characterisation at the concrete input `[2]`. -/
theorem value_decode_err_iff_witness : ∃ e, decode_raw_value .V2 [2] = .error e :=
  (value_decode_err_iff [2]).2.mpr (by decide)

/-- Claim C9: for every API version and every input byte string, the owned
decode variant (which truncates the input buffer to the user-value length, as
in the trait's default method) returns exactly the same result as the
borrowing `decode_raw_value` — the same error on malformed input and the same
user value and expiry on success. -/
theorem decode_raw_value_owned_agrees (v : ApiVersion) (bs : List Nat) :
    decode_raw_value_owned v bs = decode_raw_value v bs :=
  owned_value_eq v bs

/-- Claim C4 is false as stated: under V1TTL `parse_key_mode` does not return
`Unknown` — transactional mode is disabled there, so every key is classified
as raw data; the in-repo vector `APIV1TTL::parse_key_mode(b"ot") ==
KeyMode::Raw` (lib.rs line 162) pins this down at the concrete key `"ot"`. -/
theorem parse_key_mode_cx :
    parse_key_mode .V1ttl [111, 116] = KeyMode.Raw ∧ KeyMode.Raw ≠ KeyMode.Unknown :=
  ⟨rfl, by decide⟩

/-- Claim C4 (amended): `parse_key_mode` returns `Unknown` for every key
under V1, `Raw` for every key under V1TTL, and under V2 dispatches on the
leading byte — raw byte 114 (`r`) gives `Raw`, transactional byte 120 (`x`)
gives `Txn`, table byte 116 (`t`) or meta byte 109 (`m`) gives `TiDB`, and
anything else (including the empty key) gives `Unknown`; the eight
`test_parse` vectors of the source are reproduced exactly. -/
theorem parse_key_mode_spec :
    (∀ key : List Nat, parse_key_mode .V1 key = .Unknown)
  ∧ (∀ key : List Nat, parse_key_mode .V1ttl key = .Raw)
  ∧ parse_key_mode .V2 [] = .Unknown
  ∧ (∀ (b : Nat) (rest : List Nat),
      parse_key_mode .V2 (b :: rest) =
        if b = 114 then .Raw
        else if b = 120 then .Txn
        else if b = 116 ∨ b = 109 then .TiDB
        else .Unknown)
  ∧ (parse_key_mode .V1 [116, 95, 97] = .Unknown
    ∧ parse_key_mode .V1ttl [111, 116] = .Raw
    ∧ parse_key_mode .V2 [114, 97, 98] = .Raw
    ∧ parse_key_mode .V2 [114] = .Raw
    ∧ parse_key_mode .V2 [120] = .Txn
    ∧ parse_key_mode .V2 [116, 95, 97] = .TiDB
    ∧ parse_key_mode .V2 [109] = .TiDB
    ∧ parse_key_mode .V2 [111, 116] = .Unknown) := by
  refine ⟨fun _ => rfl, fun _ => rfl, rfl, ?_, by decide⟩
  intro b rest
  simp only [parse_key_mode]
  by_cases h114 : b = 114
  · simp [h114]
  · by_cases h120 : b = 120
    · simp [h114, h120]
    · by_cases h116 : b = 116
      · simp [h114, h120, h116]
      · by_cases h109 : b = 109
        · simp [h114, h120, h116, h109]
        · simp [h114, h120, h116, h109]

/-- Claim C5: `parse_range_mode` yields `Unknown` whenever a bound is absent;
whenever it yields a namespace mode, both bounds are present, the start key
classifies to that very mode under the same version's `parse_key_mode`, and
the end bound either classifies to the same mode or is exactly the one-byte
successor of the start's leading byte (the whole-namespace upper bound); the
`test_parse_range` vectors of the source — which fix the exact boundary
policy — are reproduced exactly. -/
theorem parse_range_mode_spec :
    (∀ (v : ApiVersion) (e : Option (List Nat)), parse_range_mode v (none, e) = .Unknown)
  ∧ (∀ (v : ApiVersion) (s : Option (List Nat)), parse_range_mode v (s, none) = .Unknown)
  ∧ (∀ (v : ApiVersion) (s e : List Nat),
      parse_range_mode v (some s, some e) ≠ .Unknown →
        parse_range_mode v (some s, some e) = parse_key_mode v s
        ∧ (parse_key_mode v e = parse_key_mode v s ∨ e = [s.headD 0 + 1]))
  ∧ (parse_range_mode .V1 (none, none) = .Unknown
    ∧ parse_range_mode .V1 (some [120], none) = .Unknown
    ∧ parse_range_mode .V1ttl (some [109, 95, 97], some [110, 97]) = .Raw
    ∧ parse_range_mode .V2 (some [116, 95, 97], some [116, 95, 122]) = .TiDB
    ∧ parse_range_mode .V2 (some [116], some [117]) = .TiDB
    ∧ parse_range_mode .V2 (some [109], some [110]) = .TiDB
    ∧ parse_range_mode .V2 (some [109, 95, 97], some [109, 95, 122]) = .TiDB
    ∧ parse_range_mode .V2 (some [120, 0, 97], some [120, 0, 122]) = .Txn
    ∧ parse_range_mode .V2 (some [120], some [121]) = .Txn
    ∧ parse_range_mode .V2 (some [114, 0, 97], some [114, 0, 122]) = .Raw
    ∧ parse_range_mode .V2 (some [114], some [115]) = .Raw
    ∧ parse_range_mode .V2 (some [116, 95, 97], some [117, 97]) = .Unknown
    ∧ parse_range_mode .V2 (some [116], none) = .Unknown
    ∧ parse_range_mode .V2 (none, some [116, 95, 122]) = .Unknown
    ∧ parse_range_mode .V2 (some [109, 95, 97], some [110, 97]) = .Unknown
    ∧ parse_range_mode .V2 (some [109], none) = .Unknown
    ∧ parse_range_mode .V2 (none, some [109, 95, 122]) = .Unknown
    ∧ parse_range_mode .V2 (some [120, 0, 97], some [121, 97]) = .Unknown
    ∧ parse_range_mode .V2 (some [120], none) = .Unknown
    ∧ parse_range_mode .V2 (none, some [120, 0, 122]) = .Unknown
    ∧ parse_range_mode .V2 (some [114, 0, 97], some [115, 97]) = .Unknown
    ∧ parse_range_mode .V2 (some [114], none) = .Unknown
    ∧ parse_range_mode .V2 (none, some [114, 0, 122]) = .Unknown) := by
  refine ⟨?_, ?_, ?_, by decide⟩
  · intro v e
    cases v <;> cases e <;> rfl
  · intro v s
    cases v <;> cases s <;> rfl
  · intro v s e hne
    cases v with
    | V1 => exact absurd rfl hne
    | V1ttl => exact ⟨rfl, Or.inl rfl⟩
    | V2 =>
      by_cases hc : s ≠ [] ∧ e ≠ [] ∧ (e.headD 0 = s.headD 0 ∨ e = [s.headD 0 + 1])
      · refine ⟨by simp only [parse_range_mode, if_pos hc], ?_⟩
        obtain ⟨hs, he, hor⟩ := hc
        rcases hor with hh | hsucc
        · left
          cases s with
          | nil => exact absurd rfl hs
          | cons sb srest =>
            cases e with
            | nil => exact absurd rfl he
            | cons eb erest =>
              simp only [List.headD_cons] at hh
              subst hh
              rfl
        · right
          exact hsucc
      · exact absurd (by simp only [parse_range_mode, if_neg hc]) hne

/-- Claim C5 witness: the whole-table-namespace range `("t", "u")` through the
theorem's third conjunct, with the non-Unknown hypothesis discharged. -/
theorem parse_range_mode_spec_witness :
    parse_range_mode .V2 (some [116], some [117]) = parse_key_mode .V2 [116]
    ∧ (parse_key_mode .V2 [117] = parse_key_mode .V2 [116]
      ∨ [117] = [([116] : List Nat).headD 0 + 1]) :=
  parse_range_mode_spec.2.2.1 .V2 [116] [117] (by decide)

theorem encGroupsF_congr : ∀ (f1 f2 : Nat) (k : List Nat), k.length ≤ f1 → k.length ≤ f2 →
    encGroupsF f1 k = encGroupsF f2 k := by
  intro f1
  induction f1 with
  | zero =>
    intro f2 k h1 h2
    have hk : k = [] := List.length_eq_zero.mp (by omega)
    subst hk
    cases f2 with
    | zero => rfl
    | succ f2 => simp [encGroupsF]
  | succ f1 ih =>
    intro f2 k h1 h2
    cases f2 with
    | zero =>
      have hk : k = [] := List.length_eq_zero.mp (by omega)
      subst hk
      simp [encGroupsF]
    | succ f2 =>
      simp only [encGroupsF]
      by_cases hlt : k.length < 8
      · simp [hlt]
      · simp only [if_neg hlt]
        rw [ih f2 (k.drop 8) (by simp [List.length_drop]; omega) (by simp [List.length_drop]; omega)]

theorem encGroups_short (k : List Nat) (h : k.length < 8) : encGroups k = padGroup k := by
  unfold encGroups
  cases hk : k.length with
  | zero => rfl
  | succ n =>
    simp only [encGroupsF]
    rw [if_pos h]

theorem encGroups_long (k : List Nat) (h : 8 ≤ k.length) :
    encGroups k = k.take 8 ++ 255 :: encGroups (k.drop 8) := by
  unfold encGroups
  cases hk : k.length with
  | zero => omega
  | succ n =>
    simp only [encGroupsF]
    rw [if_neg (by omega),
      encGroupsF_congr n (k.drop 8).length (k.drop 8) (by simp [List.length_drop]; omega) le_rfl]

theorem decGroupsF_congr : ∀ (f1 f2 : Nat) (bs : List Nat), bs.length ≤ f1 → bs.length ≤ f2 →
    decGroupsF f1 bs = decGroupsF f2 bs := by
  intro f1
  induction f1 with
  | zero =>
    intro f2 bs h1 h2
    have hb : bs = [] := List.length_eq_zero.mp (by omega)
    subst hb
    cases f2 with
    | zero => rfl
    | succ f2 => simp [decGroupsF]
  | succ f1 ih =>
    intro f2 bs h1 h2
    cases f2 with
    | zero =>
      have hb : bs = [] := List.length_eq_zero.mp (by omega)
      subst hb
      simp [decGroupsF]
    | succ f2 =>
      simp only [decGroupsF]
      by_cases hlt : bs.length < 9
      · simp [hlt]
      · simp only [if_neg hlt]
        rw [ih f2 (bs.drop 9) (by simp [List.length_drop]; omega) (by simp [List.length_drop]; omega)]

theorem decGroups_short (bs : List Nat) (h : bs.length < 9) :
    decGroups bs = .error .truncated := by
  unfold decGroups
  cases hk : bs.length with
  | zero => rfl
  | succ n =>
    simp only [decGroupsF]
    rw [if_pos h]

theorem chunk_take (g : List Nat) (m : Nat) (s : List Nat) (h : g.length = 8) :
    (g ++ m :: s).take 8 = g := by
  rw [← h, List.take_left]

theorem chunk_marker (g : List Nat) (m : Nat) (s : List Nat) (h : g.length = 8) :
    ((g ++ m :: s).drop 8).headD 0 = m := by
  rw [← h, List.drop_left]
  rfl

theorem chunk_drop (g : List Nat) (m : Nat) (s : List Nat) (h : g.length = 8) :
    (g ++ m :: s).drop 9 = s := by
  have hr : g ++ m :: s = (g ++ [m]) ++ s := by simp
  have h9 : (g ++ [m]).length = 9 := by simp [h]
  rw [hr, ← h9, List.drop_left]

theorem decGroups_chunk (g : List Nat) (m : Nat) (s : List Nat) (h : g.length = 8) :
    decGroups (g ++ m :: s) =
      if m = 255 then
        match decGroups s with
        | .error e => .error e
        | .ok (k, rest) => .ok (g ++ k, rest)
      else if m < 247 then .error .invalidMarker
      else if (g.drop (8 - (255 - m))).all (fun b => b == 0) then
        .ok (g.take (8 - (255 - m)), s)
      else .error .invalidPadding := by
  have hlen : (g ++ m :: s).length = 9 + s.length := by
    simp [h]
    omega
  have hguard : ¬((g ++ m :: s).length < 9) := by
    rw [hlen]
    omega
  have hfuel : 9 + s.length = (8 + s.length) + 1 := by omega
  unfold decGroups
  rw [hlen, hfuel]
  simp only [decGroupsF]
  rw [if_neg hguard, chunk_marker g m s h, chunk_take g m s h, chunk_drop g m s h,
    decGroupsF_congr (8 + s.length) s.length s (by omega) le_rfl]

theorem decGroups_pad (k s : List Nat) (h : k.length < 8) :
    decGroups (padGroup k ++ s) = .ok (k, s) := by
  have hg : (k ++ List.replicate (8 - k.length) 0).length = 8 := by
    simp
    omega
  have hassoc : padGroup k ++ s
      = (k ++ List.replicate (8 - k.length) 0) ++ (255 - (8 - k.length)) :: s := by
    simp [padGroup]
  rw [hassoc, decGroups_chunk _ _ _ hg, if_neg (by omega), if_neg (by omega)]
  have hpad : 8 - (255 - (255 - (8 - k.length))) = k.length := by omega
  rw [hpad, if_pos ?all]
  case all =>
    rw [List.drop_left]
    simp [List.all_eq_true, List.mem_replicate]
  rw [List.take_left]

theorem decGroups_encGroups : ∀ (k s : List Nat), decGroups (encGroups k ++ s) = .ok (k, s) := by
  suffices h : ∀ (n : Nat) (k s : List Nat), k.length ≤ n →
      decGroups (encGroups k ++ s) = .ok (k, s) by
    intro k s
    exact h k.length k s le_rfl
  intro n
  induction n with
  | zero =>
    intro k s hk
    have hk0 : k.length < 8 := by omega
    rw [encGroups_short k hk0]
    exact decGroups_pad k s hk0
  | succ n ih =>
    intro k s hk
    by_cases h8 : k.length < 8
    · rw [encGroups_short k h8]
      exact decGroups_pad k s h8
    · push_neg at h8
      rw [encGroups_long k h8]
      have htake : (k.take 8).length = 8 := by
        rw [List.length_take]
        omega
      have hassoc : (k.take 8 ++ 255 :: encGroups (k.drop 8)) ++ s
          = k.take 8 ++ 255 :: (encGroups (k.drop 8) ++ s) := by simp
      rw [hassoc, decGroups_chunk _ _ _ htake, if_pos rfl,
        ih (k.drop 8) s (by simp [List.length_drop]; omega)]
      show (Except.ok (k.take 8 ++ k.drop 8, s) : Except CodecError (List Nat × List Nat))
          = .ok (k, s)
      rw [List.take_append_drop]

/-- Claim C2: for every user key (the empty key included) and every optional
64-bit timestamp, V2 key decode inverts V2 key encode:
`decode (encode k ts) ts.isSome = .ok (k, ts)`, and likewise for the owned
variants (which share the same algorithm). -/
theorem v2_key_round_trip (k : List Nat) (ts : Option Nat)
    (hts : ∀ t, ts = some t → t < 2 ^ 64) :
    decode_raw_key .V2 (encode_raw_key .V2 k ts) ts.isSome = .ok (k, ts)
  ∧ decode_raw_key_owned .V2 (encode_raw_key_owned .V2 k ts) ts.isSome = .ok (k, ts) := by
  have main : decode_raw_key .V2 (encode_raw_key .V2 k ts) ts.isSome = .ok (k, ts) := by
    cases ts with
    | none =>
      have hd := decGroups_encGroups k []
      rw [List.append_nil] at hd
      simp only [encode_raw_key, tsTail, List.append_nil, Option.isSome_none]
      simp only [decode_raw_key]
      rw [hd]
      show (if ([] : List Nat) = [] then
          (Except.ok (k, none) : Except CodecError (List Nat × Option Nat))
        else .error .trailingData) = .ok (k, none)
      rw [if_pos rfl]
    | some t =>
      have ht : t < 2 ^ 64 := hts t rfl
      simp only [encode_raw_key, tsTail, Option.isSome_some]
      simp only [decode_raw_key]
      rw [decGroups_encGroups k (beBytes 8 (2 ^ 64 - 1 - t))]
      show (if (beBytes 8 (2 ^ 64 - 1 - t)).length < 8 then
          (Except.error CodecError.truncated : Except CodecError (List Nat × Option Nat))
        else if 8 < (beBytes 8 (2 ^ 64 - 1 - t)).length then .error .trailingData
        else .ok (k, some (2 ^ 64 - 1 - beVal (beBytes 8 (2 ^ 64 - 1 - t)))))
        = .ok (k, some t)
      rw [length_beBytes, if_neg (by norm_num), if_neg (by norm_num),
        beVal_beBytes 8 _ (by rw [pow256_8]; omega)]
      have hinv : 2 ^ 64 - 1 - (2 ^ 64 - 1 - t) = t := by omega
      rw [hinv]
  exact ⟨main, main⟩

/-- Claim C2 witness: the concrete round trip of key `"r"` with timestamp 2
(the `test_raw_key` scenario), obtained from the theorem with its hypothesis
discharged. -/
theorem v2_key_round_trip_witness :
    decode_raw_key .V2 (encode_raw_key .V2 [114] (some 2)) (some 2 : Option Nat).isSome
      = .ok ([114], some 2) :=
  (v2_key_round_trip [114] (some 2) (fun t ht => by
    injection ht with h
    omega)).1

/-- Claim C6: the V2 key encoding reproduces the literal byte vectors of the
spec's scenarios (and of the `test_raw_key` table): the empty key without
timestamp, the key `"r"` without timestamp, and `"r"` with timestamp 2. -/
theorem v2_key_encode_literals :
    encode_raw_key .V2 [] none = [0, 0, 0, 0, 0, 0, 0, 0, 0xF7]
  ∧ encode_raw_key .V2 [0x72] none = [0x72, 0, 0, 0, 0, 0, 0, 0, 0xF8]
  ∧ encode_raw_key .V2 [0x72] (some 2)
      = [0x72, 0, 0, 0, 0, 0, 0, 0, 0xF8,
        0xFF, 0xFF, 0xFF, 0xFF, 0xFF, 0xFF, 0xFF, 0xFD] :=
  ⟨rfl, rfl, rfl⟩

/-- Claim C1: the spec's decode contract evaluated at the malformed inputs of
`tests::test_v2_key_decode_err` — the spec-modelled V2 key decoder is total
and returns the propagated error kind of the spec's taxonomy on every one of
the test's inputs (the repository test instead asserts, via
`panic_hook::recover_safe`, that each of these calls panics). -/
theorem v2_key_decode_err_model :
    decode_raw_key .V2 [1, 2, 3, 4, 5, 6, 7, 8, 9] false = .error .invalidMarker
  ∧ decode_raw_key .V2 [114, 2, 3, 4, 5, 6, 7, 8] false = .error .truncated
  ∧ decode_raw_key .V2 [114, 2, 3, 4, 5, 6, 7, 8, 9, 10] false = .error .invalidMarker
  ∧ decode_raw_key .V2 [114, 2, 3, 4, 5, 6, 7, 8, 9, 10, 11, 12] true = .error .invalidMarker
  ∧ decode_raw_key .V2 [114, 2, 3, 4, 5, 6, 7, 8, 255, 1, 2, 3, 4, 0, 0, 0, 0, 251, 0] true
      = .error .truncated
  ∧ decode_raw_key .V2
      [114, 2, 3, 4, 5, 6, 7, 8, 255, 1, 2, 3, 4, 0, 0, 0, 0, 251, 0, 0, 0, 0, 0, 0, 0, 1, 0]
      true = .error .trailingData
  ∧ decode_raw_key .V2 [114, 2, 3, 4, 0, 0, 1, 0, 251] false = .error .invalidPadding
  ∧ decode_raw_key .V2 [114, 2, 3, 4, 5, 6, 7, 8, 246] false = .error .invalidMarker
  ∧ decode_raw_key_owned .V2 [1, 2, 3, 4, 5, 6, 7, 8, 9] false = .error .invalidMarker :=
  ⟨rfl, rfl, rfl, rfl, rfl, rfl, rfl, rfl, rfl⟩

/-- Claim C10: under V1 and V1TTL the key codec is the identity (the default
trait methods of `lib.rs`): encode returns the key bytes verbatim for any
timestamp argument, and decode succeeds on every byte string, for either
value of the `with_ts` flag, returning the bytes verbatim with no timestamp;
likewise for the owned variants. -/
theorem v1_key_codec_identity :
    (∀ (k : List Nat) (ts : Option Nat),
        encode_raw_key .V1 k ts = k ∧ encode_raw_key .V1ttl k ts = k
      ∧ encode_raw_key_owned .V1 k ts = k ∧ encode_raw_key_owned .V1ttl k ts = k)
  ∧ (∀ (bs : List Nat) (wt : Bool),
        decode_raw_key .V1 bs wt = .ok (bs, none)
      ∧ decode_raw_key .V1ttl bs wt = .ok (bs, none)
      ∧ decode_raw_key_owned .V1 bs wt = .ok (bs, none)
      ∧ decode_raw_key_owned .V1ttl bs wt = .ok (bs, none)) :=
  ⟨fun _ _ => ⟨rfl, rfl, rfl, rfl⟩, fun _ _ => ⟨rfl, rfl, rfl, rfl⟩⟩

theorem lex_append_left (p : List Nat) {c d : List Nat}
    (h : List.Lex (fun a b => a < b) c d) :
    List.Lex (fun a b => a < b) (p ++ c) (p ++ d) := by
  induction p with
  | nil => exact h
  | cons x p ih => exact List.Lex.cons ih

theorem lex_append_self (a : List Nat) (d : List Nat) (hd : d ≠ []) :
    List.Lex (fun x y => x < y) a (a ++ d) := by
  induction a with
  | nil =>
    cases d with
    | nil => exact absurd rfl hd
    | cons x xs => exact List.Lex.nil
  | cons x a ih => exact List.Lex.cons ih

theorem lex_irrefl (l : List Nat) : ¬ List.Lex (fun a b => a < b) l l := by
  induction l with
  | nil =>
    intro h
    cases h
  | cons x l ih =>
    intro h
    cases h with
    | cons h1 => exact ih h1
    | rel h1 => omega

theorem lex_cases {a b : List Nat} (h : List.Lex (fun x y => x < y) a b) :
    (∃ d, b = a ++ d ∧ d ≠ []) ∨
    (∃ p x y xs ys, x < y ∧ a = p ++ x :: xs ∧ b = p ++ y :: ys) := by
  induction h with
  | nil => exact Or.inl ⟨_, rfl, by simp⟩
  | @rel a1 l1 a2 l2 hr => exact Or.inr ⟨[], a1, a2, l1, l2, hr, rfl, rfl⟩
  | @cons a0 l1 l2 hlex ih =>
    rcases ih with ⟨d, hd, hdne⟩ | ⟨p, x, y, xs, ys, hxy, ha, hb⟩
    · exact Or.inl ⟨d, by rw [hd]; rfl, hdne⟩
    · exact Or.inr ⟨a0 :: p, x, y, xs, ys, hxy, by rw [ha]; rfl, by rw [hb]; rfl⟩

theorem beBytes_lt_lex : ∀ (n a b : Nat), a < b → b < 256 ^ n →
    List.Lex (fun x y => x < y) (beBytes n a) (beBytes n b) := by
  intro n
  induction n with
  | zero =>
    intro a b hab hb
    exfalso
    simp only [pow_zero] at hb
    omega
  | succ n ih =>
    intro a b hab hb
    simp only [beBytes]
    rcases Nat.lt_trichotomy (a / 256 ^ n) (b / 256 ^ n) with h | h | h
    · exact List.Lex.rel h
    · rw [h]
      refine List.Lex.cons (ih (a % 256 ^ n) (b % 256 ^ n) ?_ ?_)
      · have hda := Nat.div_add_mod a (256 ^ n)
        have hdb := Nat.div_add_mod b (256 ^ n)
        rw [← h] at hdb
        omega
      · exact Nat.mod_lt _ (Nat.pos_pow_of_pos n (by norm_num))
    · have h2 : a / 256 ^ n ≤ b / 256 ^ n := Nat.div_le_div_right (Nat.le_of_lt hab)
      omega

theorem lex_pad_z : ∀ (d : List Nat) (n m1 m2 : Nat), d.length ≤ n → m1 < m2 →
    List.Lex (fun a b => a < b) (List.replicate n 0 ++ [m1])
      (d ++ (List.replicate (n - d.length) 0 ++ [m2])) := by
  intro d
  induction d with
  | nil =>
    intro n m1 m2 _ hm
    simp only [List.nil_append, List.length_nil, Nat.sub_zero]
    exact lex_append_left _ (List.Lex.rel hm)
  | cons d0 d' ih =>
    intro n m1 m2 hlen m
    cases n with
    | zero => simp at hlen
    | succ n =>
      have hsub : n + 1 - (d0 :: d').length = n - d'.length := by
        simp only [List.length_cons]
        omega
      rw [hsub, List.replicate_succ, List.cons_append, List.cons_append]
      rcases Nat.eq_zero_or_pos d0 with h0 | h0
      · subst h0
        exact List.Lex.cons (ih n m1 m2 (by simp only [List.length_cons] at hlen; omega) m)
      · exact List.Lex.rel h0

theorem lex_pad_ff : ∀ (d : List Nat) (m1 : Nat) (rest : List Nat), m1 < 255 →
    List.Lex (fun a b => a < b) (List.replicate d.length 0 ++ [m1]) (d ++ 255 :: rest) := by
  intro d
  induction d with
  | nil =>
    intro m1 rest hm
    exact List.Lex.rel hm
  | cons d0 d' ih =>
    intro m1 rest hm
    simp only [List.length_cons, List.replicate_succ, List.cons_append]
    rcases Nat.eq_zero_or_pos d0 with h0 | h0
    · subst h0
      exact List.Lex.cons (ih m1 rest hm)
    · exact List.Lex.rel h0

theorem take_append_of_ge (a b : List Nat) (n : Nat) (h : n ≤ a.length) :
    (a ++ b).take n = a.take n := by
  rw [List.take_append_eq_append_take, Nat.sub_eq_zero_of_le h, List.take_zero, List.append_nil]

theorem drop_append_of_ge (a b : List Nat) (n : Nat) (h : n ≤ a.length) :
    (a ++ b).drop n = a.drop n ++ b := by
  rw [List.drop_append_eq_append_drop, Nat.sub_eq_zero_of_le h, List.drop_zero]

theorem encGroups_cons_decomp (p : List Nat) (hp : p.length < 8) (x : Nat) (xs : List Nat) :
    ∃ t, encGroups (p ++ x :: xs) = p ++ x :: t := by
  by_cases h : (p ++ x :: xs).length < 8
  · rw [encGroups_short _ h]
    refine ⟨xs ++ List.replicate (8 - (p ++ x :: xs).length) 0
      ++ [255 - (8 - (p ++ x :: xs).length)], ?_⟩
    simp [padGroup]
  · push_neg at h
    rw [encGroups_long _ h]
    have h7 : 8 - p.length = (7 - p.length) + 1 := by omega
    have htake : (p ++ x :: xs).take 8 = p ++ x :: xs.take (7 - p.length) := by
      rw [List.take_append_eq_append_take, List.take_of_length_le (le_of_lt hp), h7,
        List.take_succ_cons]
    rw [htake]
    exact ⟨xs.take (7 - p.length) ++ 255 :: encGroups ((p ++ x :: xs).drop 8), by simp⟩

theorem encGroups_mono : ∀ (n : Nat) (k1 k2 : List Nat), k1.length < n →
    List.Lex (fun a b => a < b) k1 k2 →
    List.Lex (fun a b => a < b) (encGroups k1) (encGroups k2) := by
  intro n
  induction n with
  | zero =>
    intro k1 k2 h1 _
    omega
  | succ n ih =>
    intro k1 k2 h1 hlex
    rcases lex_cases hlex with ⟨d, hd, hdne⟩ | ⟨p, x, y, xs, ys, hxy, ha, hb⟩
    · subst hd
      have hdpos : 0 < d.length := List.length_pos.mpr hdne
      have hlen2 : (k1 ++ d).length = k1.length + d.length := by simp
      by_cases h8 : k1.length < 8
      · by_cases h8' : (k1 ++ d).length < 8
        · rw [encGroups_short _ h8, encGroups_short _ h8']
          simp only [padGroup, List.append_assoc]
          apply lex_append_left
          have hrep : 8 - (k1 ++ d).length = (8 - k1.length) - d.length := by omega
          rw [hrep]
          exact lex_pad_z d (8 - k1.length) _ _ (by omega) (by omega)
        · push_neg at h8'
          rw [encGroups_short _ h8, encGroups_long _ h8']
          have htake : (k1 ++ d).take 8 = k1 ++ d.take (8 - k1.length) := by
            rw [List.take_append_eq_append_take, List.take_of_length_le (le_of_lt h8)]
          rw [htake]
          simp only [padGroup, List.append_assoc, List.cons_append]
          apply lex_append_left
          have hdl : (d.take (8 - k1.length)).length = 8 - k1.length := by
            rw [List.length_take]
            omega
          have hff := lex_pad_ff (d.take (8 - k1.length)) (255 - (8 - k1.length))
            (encGroups ((k1 ++ d).drop 8)) (by omega)
          rw [hdl] at hff
          exact hff
      · push_neg at h8
        have h8' : 8 ≤ (k1 ++ d).length := by
          rw [hlen2]
          omega
        rw [encGroups_long _ h8, encGroups_long _ h8',
          take_append_of_ge _ _ _ h8, drop_append_of_ge _ _ _ h8]
        apply lex_append_left
        apply List.Lex.cons
        exact ih (k1.drop 8) (k1.drop 8 ++ d)
          (by rw [List.length_drop]; omega)
          (lex_append_self _ d hdne)
    · subst ha
      subst hb
      have hlp1 : (p ++ x :: xs).length = p.length + xs.length + 1 := by
        simp
        omega
      by_cases hp : p.length < 8
      · obtain ⟨t1, ht1⟩ := encGroups_cons_decomp p hp x xs
        obtain ⟨t2, ht2⟩ := encGroups_cons_decomp p hp y ys
        rw [ht1, ht2]
        exact lex_append_left p (List.Lex.rel hxy)
      · push_neg at hp
        have h1l : 8 ≤ (p ++ x :: xs).length := by
          rw [hlp1]
          omega
        have h2l : 8 ≤ (p ++ y :: ys).length := by
          simp
          omega
        rw [encGroups_long _ h1l, encGroups_long _ h2l,
          take_append_of_ge _ _ _ hp, take_append_of_ge _ _ _ hp,
          drop_append_of_ge _ _ _ hp, drop_append_of_ge _ _ _ hp]
        apply lex_append_left
        apply List.Lex.cons
        refine ih (p.drop 8 ++ x :: xs) (p.drop 8 ++ y :: ys) ?_
          (lex_append_left _ (List.Lex.rel hxy))
        have : (p.drop 8 ++ x :: xs).length = (p.length - 8) + xs.length + 1 := by
          simp
          omega
        rw [this]
        omega

theorem encGroups_append_inj {k1 k2 r : List Nat}
    (h : encGroups k1 ++ r = encGroups k2) : k1 = k2 ∧ r = [] := by
  have h1 := decGroups_encGroups k1 r
  have h2 := decGroups_encGroups k2 []
  rw [List.append_nil] at h2
  rw [h, h2] at h1
  injection h1 with h3
  injection h3 with ha hb
  exact ⟨ha.symm, hb.symm⟩

theorem length_encGroups : ∀ (n : Nat) (k : List Nat), k.length ≤ n →
    ∃ m, (encGroups k).length = 9 * m := by
  intro n
  induction n with
  | zero =>
    intro k hk
    rw [encGroups_short _ (by omega)]
    refine ⟨1, ?_⟩
    simp only [padGroup, List.length_append, List.length_replicate, List.length_cons,
      List.length_nil]
    omega
  | succ n ih =>
    intro k hk
    by_cases h8 : k.length < 8
    · rw [encGroups_short _ h8]
      refine ⟨1, ?_⟩
      simp only [padGroup, List.length_append, List.length_replicate, List.length_cons,
        List.length_nil]
      omega
    · push_neg at h8
      rw [encGroups_long _ h8]
      obtain ⟨m, hm⟩ := ih (k.drop 8) (by rw [List.length_drop]; omega)
      refine ⟨m + 1, ?_⟩
      simp only [List.length_append, List.length_cons, List.length_take, hm]
      omega

theorem tsTail_length_le (ts : Option Nat) : (tsTail ts).length ≤ 8 := by
  cases ts <;> simp [tsTail, length_beBytes]

/-- Claim C8: the V2 key encoding is memcomparable: byte-lexicographic
comparison of encodings orders pairs by user key ascending (whatever the
optional timestamps are), and for one key with two embedded timestamps the
larger timestamp sorts strictly first (timestamp descending); moreover the
encoding of one key is never a byte-prefix of the encoding of a different
key (stated via `take`: taking the shorter encoding's length from the other
encoding never reproduces it). -/
theorem v2_key_memcomparable :
    (∀ (k1 k2 : List Nat) (ts1 ts2 : Option Nat),
      List.Lex (fun a b => a < b) k1 k2 →
      List.Lex (fun a b => a < b) (encode_raw_key .V2 k1 ts1) (encode_raw_key .V2 k2 ts2))
  ∧ (∀ (k : List Nat) (t1 t2 : Nat), t1 < 2 ^ 64 → t2 < t1 →
      List.Lex (fun a b => a < b) (encode_raw_key .V2 k (some t1))
        (encode_raw_key .V2 k (some t2)))
  ∧ (∀ (k1 k2 : List Nat) (ts1 ts2 : Option Nat), k1 ≠ k2 →
      (encode_raw_key .V2 k2 ts2).take (encode_raw_key .V2 k1 ts1).length
        ≠ encode_raw_key .V2 k1 ts1) := by
  refine ⟨?_, ?_, ?_⟩
  · intro k1 k2 ts1 ts2 hlex
    have hne : k1 ≠ k2 := by
      intro hh
      subst hh
      exact lex_irrefl _ hlex
    have hglex := encGroups_mono (k1.length + 1) k1 k2 (by omega) hlex
    rcases lex_cases hglex with ⟨d, hd, hdne⟩ | ⟨p, x, y, xs, ys, hxy, ha, hb⟩
    · exact absurd (encGroups_append_inj hd.symm).1 hne
    · show List.Lex (fun a b => a < b) (encGroups k1 ++ tsTail ts1)
        (encGroups k2 ++ tsTail ts2)
      rw [ha, hb]
      simp only [List.append_assoc, List.cons_append]
      exact lex_append_left p (List.Lex.rel hxy)
  · intro k t1 t2 h1 h2
    show List.Lex (fun a b => a < b) (encGroups k ++ tsTail (some t1))
      (encGroups k ++ tsTail (some t2))
    apply lex_append_left
    show List.Lex (fun a b => a < b) (beBytes 8 (2 ^ 64 - 1 - t1)) (beBytes 8 (2 ^ 64 - 1 - t2))
    apply beBytes_lt_lex
    · omega
    · rw [pow256_8]
      omega
  · intro k1 k2 ts1 ts2 hne hpre
    have henc1 : encode_raw_key .V2 k1 ts1 = encGroups k1 ++ tsTail ts1 := rfl
    have henc2 : encode_raw_key .V2 k2 ts2 = encGroups k2 ++ tsTail ts2 := rfl
    have hsplit : encode_raw_key .V2 k1 ts1
        ++ (encode_raw_key .V2 k2 ts2).drop (encode_raw_key .V2 k1 ts1).length
        = encode_raw_key .V2 k2 ts2 := by
      conv_rhs => rw [← List.take_append_drop (encode_raw_key .V2 k1 ts1).length
        (encode_raw_key .V2 k2 ts2)]
      rw [hpre]
    rw [henc1, henc2] at hsplit
    obtain ⟨m1, hm1⟩ := length_encGroups k1.length k1 le_rfl
    obtain ⟨m2, hm2⟩ := length_encGroups k2.length k2 le_rfl
    have ht1 := tsTail_length_le ts1
    have ht2 := tsTail_length_le ts2
    by_cases hle : (encGroups k1).length ≤ (encGroups k2).length
    · have h1 : ((encGroups k1 ++ tsTail ts1)
          ++ (encGroups k2 ++ tsTail ts2).drop
            (encGroups k1 ++ tsTail ts1).length).take (encGroups k1).length
          = (encGroups k2 ++ tsTail ts2).take (encGroups k1).length := by
        rw [hsplit]
      rw [take_append_of_ge (encGroups k1 ++ tsTail ts1) _ _ (by simp),
        take_append_of_ge (encGroups k1) (tsTail ts1) _ le_rfl,
        List.take_length,
        take_append_of_ge (encGroups k2) (tsTail ts2) _ hle] at h1
      have hB : encGroups k1 ++ (encGroups k2).drop (encGroups k1).length = encGroups k2 := by
        conv_rhs => rw [← List.take_append_drop (encGroups k1).length (encGroups k2)]
        rw [← h1]
      exact hne (encGroups_append_inj hB).1
    · push_neg at hle
      have hlen := congrArg List.length hsplit
      simp only [List.length_append, List.length_drop] at hlen
      omega

/-- Claim C8 witness: with the same key, timestamp 3 encodes strictly before
timestamp 2, obtained from the descending-timestamp conjunct at key `"r"`. -/
theorem v2_key_memcomparable_witness :
    List.Lex (fun a b => a < b) (encode_raw_key .V2 [114] (some 3))
      (encode_raw_key .V2 [114] (some 2)) :=
  v2_key_memcomparable.2.1 [114] 3 2 (by norm_num) (by norm_num)
